import Mathlib

/-!
# varlib: dynamic pointer array and variable string

A shallow embedding of `vbuf.c` / `vbuf.h`.

Modelling conventions:

* A pointer value is a natural number, `NULL` is `0`; a wide character is a
  natural number, the terminator `L'\0'` is `0`.
* The storage behind `keys` / `str` is the memory seen from the base pointer:
  a total map from the (signed) slot index to the value held there.  The
  fields `used` and `size` are the C `int` fields.  The model gives every
  slot a value; that an access stays below `size` is a property to be proved
  about a state, not a side condition of the definitions.
* `int` and `size_t` quantities are unbounded integers, with one exception:
  the `size_t count` argument of `varstr_ncat`, which a caller may set to any
  value up to `SIZE_MAX`.  The sum `count + 1` is computed in `size_t`
  (64 bits), converted to `int` (32 bits, two's complement) for the refill,
  and added to `used` in `size_t` before the result is stored in the `int`
  field; these conversions are modelled.  Elsewhere the development covers
  the executions in which no C integer computation leaves the range of its
  type (arrays and strings of fewer than 2^31 elements).
* The outcome of an allocation is an argument of the operation that
  allocates: the environment decides whether `malloc` / `calloc` / `realloc`
  succeeds, and what the cells added by `realloc` hold.
-/

namespace Varlib

/-! ## Constants of `vbuf.h` -/

/-- Default variable string start length. -/
def VARSTR_START_SIZE : Int := 15
/-- Default variable string refill length. -/
def VARSTR_REFILL_SIZE : Int := 5
/-- Default DPA start length. -/
def DPA_START_SIZE : Int := 25
/-- Default DPA refill length. -/
def DPA_REFILL_SIZE : Int := 10

/-- A pointer value. -/
abbrev Ptr := Nat
/-- The null pointer. -/
def NULL : Ptr := 0

/-- A wide character. -/
abbrev WChar := Nat

/-! ## Dynamic pointer array -/

/-- The struct `DPA`: `keys` is the memory at the base pointer, indexed by slot. -/
structure DPA where
  keys : Int → Ptr
  used : Int
  size : Int

/-- The assignment `keys[i] = v`. -/
def setSlot {α : Type} (m : Int → α) (i : Int) (v : α) : Int → α :=
  fun k => if k = i then v else m k

/-- The function `DPA_init`: `mallocOk` and `callocOk` are the outcomes of the two
allocations; `none` is the `NULL` result.  `calloc` hands out zeroed slots. -/
def DPA_init (mallocOk callocOk : Bool) : Option DPA :=
  if mallocOk = false then none
  else if callocOk = false then none
  else some { keys := fun _ => NULL, used := 0, size := DPA_START_SIZE }

/-- The scan loop of `DPA_rem`,
`for (void *tbr = keys[i]; i < used; tbr = keys[++i]) if (tbr == obj) j = i;`
entered with the loop variables `i`, `j`, `tbr`; the first argument counts the
iterations still allowed.  Returns the final `(i, j)`. -/
def DPA_rem_loop (keys : Int → Ptr) (used : Int) (obj : Ptr) :
    Nat → Int → Int → Ptr → Int × Int
  | 0, i, j, _ => (i, j)
  | fuel + 1, i, j, tbr =>
    if i < used then
      DPA_rem_loop keys used obj fuel (i + 1) (if tbr = obj then i else j) (keys (i + 1))
    else (i, j)

/-- The function `DPA_rem`.  The C function returns `false` or `true` converted to
`bool *`; the model returns the boolean.  The loop is given `used` iterations,
which is the number it performs. -/
def DPA_rem (dpa : DPA) (obj : Ptr) : Bool × DPA :=
  let r := DPA_rem_loop dpa.keys dpa.used obj dpa.used.toNat 0 (-1) (dpa.keys 0)
  let i := r.1
  let j := r.2
  if j = -1 then (false, dpa)
  else
    let keys1 := setSlot dpa.keys j (dpa.keys (i - 1))
    let keys2 := setSlot keys1 (i - 1) NULL
    (true, { keys := keys2, used := dpa.used - 1, size := dpa.size })

/-- The function `DPA_store`.  `re` is the outcome of `realloc`, consulted only when
the array grows: `none` when it fails, `some g` when it succeeds, `g` giving
the contents of the slots it adds.  Returns the pointer returned and the
array afterwards. -/
def DPA_store (dpa : DPA) (obj : Ptr) (re : Option (Int → Ptr)) : Ptr × DPA :=
  if dpa.size - dpa.used < 2 then
    match re with
    | none => (NULL, dpa)
    | some g =>
      let ptr : Int → Ptr := fun k => if 0 ≤ k ∧ k < dpa.size then dpa.keys k else g k
      let size := dpa.size + DPA_REFILL_SIZE
      (obj, { keys := setSlot ptr dpa.used obj, used := dpa.used + 1, size := size })
  else
    (obj, { keys := setSlot dpa.keys dpa.used obj, used := dpa.used + 1, size := dpa.size })

/-- Successive calls of `DPA_store`, each with the contents `realloc` would put
in the slots it adds (every allocation succeeds). -/
def DPA_store_all (dpa : DPA) : List (Ptr × (Int → Ptr)) → DPA
  | [] => dpa
  | (obj, g) :: rest => DPA_store_all (DPA_store dpa obj (some g)).2 rest

/-- The used region `keys[0 .. used-1]` as a list. -/
def DPA.region (dpa : DPA) : List Ptr :=
  (List.range dpa.used.toNat).map (fun (k : Nat) => dpa.keys (k : Int))

/-! ## Variable string -/

/-- The struct `varstr`: `str` is the memory at the base pointer, indexed by slot. -/
structure varstr where
  str : Int → WChar
  used : Int
  size : Int

/-- The outcome of a call that returns a pointer after working on the string:
`null` is the `NULL` result; `unterminated` says that the scan for the end of
the string in the buffer met no terminator below `size`, where C gives the
call no meaning. -/
inductive Res (α : Type) where
  | unterminated : Res α
  | null : Res α
  | ok : α → Res α

/-- The C string a `wchar_t *` argument denotes: the characters before the first
terminator. -/
def cstr (s : List WChar) : List WChar :=
  s.takeWhile (fun c => decide (c ≠ 0))

/-- The scan of `wcslen` over the buffer from index `i`, reading at most the number
of slots given by the first argument: the index of the first terminator. -/
def wcslenFrom (m : Int → WChar) : Nat → Int → Option Int
  | 0, _ => none
  | fuel + 1, i => if m i = 0 then some i else wcslenFrom m fuel (i + 1)

/-- The length `wcslen` finds for the string in a buffer of `cap` slots. -/
def wcslen (m : Int → WChar) (cap : Int) : Option Int :=
  wcslenFrom m cap.toNat 0

/-- The characters `chars` written from index `len` on, followed by a terminator:
what `wcscat` / `wcsncat` write at the end of a string of length `len`. -/
def appendAt (m : Int → WChar) (len : Int) (chars : List WChar) : Int → WChar :=
  fun k =>
    if len ≤ k ∧ k < len + chars.length then chars.getD (k - len).toNat 0
    else if k = len + chars.length then 0
    else m k

/-- The call `wcscat(dest, src)` on a destination buffer of `cap` slots. -/
def wcscat (dest : Int → WChar) (cap : Int) (src : List WChar) : Option (Int → WChar) :=
  (wcslen dest cap).map (fun len => appendAt dest len (cstr src))

/-- The call `wcsncat(dest, src, count)` on a destination buffer of `cap` slots: at
most `count` characters of the source string, then a terminator. -/
def wcsncat (dest : Int → WChar) (cap : Int) (src : List WChar) (count : Nat) :
    Option (Int → WChar) :=
  (wcslen dest cap).map (fun len => appendAt dest len ((cstr src).take count))

/-- The function `varstr_init`: `mallocOk` and `callocOk` are the outcomes of the two
allocations; `none` is the `NULL` result. -/
def varstr_init (mallocOk callocOk : Bool) : Option varstr :=
  if mallocOk = false then none
  else if callocOk = false then none
  else some { str := fun _ => 0, used := 0, size := VARSTR_START_SIZE }

/-- The function `varstr_refill_if_needed`: `reallocOk` is the outcome of `realloc`,
consulted only when the buffer grows; the slots added are set to the
terminator by `wmemset`. -/
def varstr_refill_if_needed (vs : varstr) (iu : Int) (reallocOk : Bool) : Option varstr :=
  if vs.size - vs.used ≤ iu then
    if reallocOk = false then none
    else
      let ptr : Int → WChar := fun k =>
        if vs.size ≤ k ∧ k < vs.size + (iu + VARSTR_REFILL_SIZE) then 0 else vs.str k
      some { str := ptr, used := vs.used, size := vs.size + iu + VARSTR_REFILL_SIZE }
  else some vs

/-- The function `varstr_cat`. -/
def varstr_cat (vs : varstr) (str : List WChar) (reallocOk : Bool) : Res varstr :=
  match varstr_refill_if_needed vs (((cstr str).length : Int) + 1) reallocOk with
  | none => Res.null
  | some vs1 =>
    let used := vs1.used + (((cstr str).length : Int) + 1)
    match wcscat vs1.str vs1.size str with
    | none => Res.unterminated
    | some m => Res.ok { str := m, used := used, size := vs1.size }

/-- The largest `size_t`, 2^64 - 1. -/
def SIZE_MAX : Nat := 18446744073709551615
/-- The largest `int`, 2^31 - 1. -/
def INT_MAX : Int := 2147483647
/-- The smallest `int`, -2^31. -/
def INT_MIN : Int := -2147483648

/-- The sum of two `size_t` values: modulo 2^64. -/
def size_t_add (a b : Nat) : Nat := (a + b) % 18446744073709551616

/-- The conversion of an `int` to `size_t`: the value modulo 2^64. -/
def size_t_of_int (i : Int) : Nat := (i % 18446744073709551616).toNat

/-- The conversion of a `size_t` to `int`: the low 32 bits read in two's complement. -/
def int_of_size_t (n : Nat) : Int :=
  if n % 4294967296 < 2147483648 then ((n % 4294967296 : Nat) : Int)
  else ((n % 4294967296 : Nat) : Int) - 4294967296

/-- The function `varstr_ncat`, for `count ≤ SIZE_MAX`.  The argument `count + 1` of
the refill is a `size_t` converted to the `int` parameter `iu`; the statement
`vs->used += (count + 1)` adds in `size_t` and stores the sum in the `int`
field. -/
def varstr_ncat (vs : varstr) (str : List WChar) (count : Nat) (reallocOk : Bool) :
    Res varstr :=
  match varstr_refill_if_needed vs (int_of_size_t (size_t_add count 1)) reallocOk with
  | none => Res.null
  | some vs1 =>
    let used := int_of_size_t (size_t_add (size_t_of_int vs1.used) (size_t_add count 1))
    match wcsncat vs1.str vs1.size str count with
    | none => Res.unterminated
    | some m => Res.ok { str := m, used := used, size := vs1.size }

/-- The function `varstr_pushc`; `none` is the `NULL` result. -/
def varstr_pushc (vs : varstr) (c : WChar) (reallocOk : Bool) : Option varstr :=
  match varstr_refill_if_needed vs 2 reallocOk with
  | none => none
  | some vs1 =>
    some { str := setSlot vs1.str vs1.used c, used := vs1.used + 1, size := vs1.size }

/-- The string in the buffer as `wcslen` / `wcscpy` see it: the characters before
the first terminator, when there is one below `size`. -/
def varstr.content (vs : varstr) : Option (List WChar) :=
  (wcslen vs.str vs.size).map
    (fun len => (List.range len.toNat).map (fun (k : Nat) => vs.str (k : Int)))

/-- The result of `varstr_pack`: `alloc` is the number of wide characters
requested from `malloc`, `chars` the wide characters `wcscpy` writes into the
block (the string and its terminator). -/
structure Packed where
  alloc : Int
  chars : List WChar

/-- The function `varstr_pack`: `mallocOk` is the outcome of `malloc`. -/
def varstr_pack (vs : varstr) (mallocOk : Bool) : Res Packed :=
  if mallocOk = false then Res.null
  else
    match vs.content with
    | none => Res.unterminated
    | some c => Res.ok { alloc := vs.used + 1, chars := c ++ [0] }

/-- Successive calls of `varstr_cat`, every allocation succeeding. -/
def varstr_cat_all (vs : varstr) : List (List WChar) → Res varstr
  | [] => Res.ok vs
  | s :: rest =>
    match varstr_cat vs s true with
    | Res.ok vs1 => varstr_cat_all vs1 rest
    | Res.null => Res.null
    | Res.unterminated => Res.unterminated

/-- The buffers reachable from `varstr_init` by successful calls of `varstr_cat`,
`varstr_ncat` and `varstr_pushc`. -/
inductive Reachable : varstr → Prop where
  | init {vs : varstr} : varstr_init true true = some vs → Reachable vs
  | cat {vs vs1 : varstr} (s : List WChar) (ok : Bool) :
      Reachable vs → varstr_cat vs s ok = Res.ok vs1 → Reachable vs1
  | ncat {vs vs1 : varstr} (s : List WChar) (count : Nat) (ok : Bool) :
      Reachable vs → varstr_ncat vs s count ok = Res.ok vs1 → Reachable vs1
  | pushc {vs vs1 : varstr} (c : WChar) (ok : Bool) :
      Reachable vs → varstr_pushc vs c ok = some vs1 → Reachable vs1

/-- The state invariant of the variable string: `0 ≤ used < size` and every slot
from `used` up to `size` holds the terminator. -/
def varstr.Inv (vs : varstr) : Prop :=
  0 ≤ vs.used ∧ vs.used < vs.size ∧ ∀ k, vs.used ≤ k → k < vs.size → vs.str k = 0

/-- The fresh buffer `varstr_init` returns. -/
def vsFresh : varstr := { str := fun _ => 0, used := 0, size := VARSTR_START_SIZE }

/-! ## The buffer after a call, and reachability through any call -/

/-- The buffer behind the caller's pointer when `varstr_refill_if_needed` returns.  On
the `return NULL` path no field has been assigned, and the `realloc` that failed
has left the block as it was. -/
def varstr_refill_if_needed_buf (vs : varstr) (iu : Int) (reallocOk : Bool) : varstr :=
  if vs.size - vs.used ≤ iu then
    if reallocOk = false then vs
    else
      let ptr : Int → WChar := fun k =>
        if vs.size ≤ k ∧ k < vs.size + (iu + VARSTR_REFILL_SIZE) then 0 else vs.str k
      { str := ptr, used := vs.used, size := vs.size + iu + VARSTR_REFILL_SIZE }
  else vs

/-- The buffer behind the caller's pointer when `varstr_cat` returns; `none` when
the scan for the end of the string met no terminator below `size`. -/
def varstr_cat_buf (vs : varstr) (str : List WChar) (reallocOk : Bool) : Option varstr :=
  match varstr_refill_if_needed vs (((cstr str).length : Int) + 1) reallocOk with
  | none => some (varstr_refill_if_needed_buf vs (((cstr str).length : Int) + 1) reallocOk)
  | some vs1 =>
    let used := vs1.used + (((cstr str).length : Int) + 1)
    match wcscat vs1.str vs1.size str with
    | none => none
    | some m => some { str := m, used := used, size := vs1.size }

/-- The buffer behind the caller's pointer when `varstr_ncat` returns; `none` when
the scan for the end of the string met no terminator below `size`. -/
def varstr_ncat_buf (vs : varstr) (str : List WChar) (count : Nat) (reallocOk : Bool) :
    Option varstr :=
  match varstr_refill_if_needed vs (int_of_size_t (size_t_add count 1)) reallocOk with
  | none =>
    some (varstr_refill_if_needed_buf vs (int_of_size_t (size_t_add count 1)) reallocOk)
  | some vs1 =>
    let used := int_of_size_t (size_t_add (size_t_of_int vs1.used) (size_t_add count 1))
    match wcsncat vs1.str vs1.size str count with
    | none => none
    | some m => some { str := m, used := used, size := vs1.size }

/-- The buffer behind the caller's pointer when `varstr_pushc` returns. -/
def varstr_pushc_buf (vs : varstr) (c : WChar) (reallocOk : Bool) : varstr :=
  match varstr_refill_if_needed vs 2 reallocOk with
  | none => varstr_refill_if_needed_buf vs 2 reallocOk
  | some vs1 => { str := setSlot vs1.str vs1.used c, used := vs1.used + 1, size := vs1.size }

/-- The buffer behind the caller's pointer when `varstr_pack` returns: untouched when
`malloc` fails, gone (`none`) once `free` has released it. -/
def varstr_pack_buf (vs : varstr) (mallocOk : Bool) : Option varstr :=
  if mallocOk = false then some vs else none

/-- The buffers reachable from `varstr_init` by calls of `varstr_cat`, `varstr_ncat`
and `varstr_pushc`, whether they succeed or fail. -/
inductive ReachableAny : varstr → Prop where
  | init {vs : varstr} : varstr_init true true = some vs → ReachableAny vs
  | cat {vs vs1 : varstr} (s : List WChar) (ok : Bool) :
      ReachableAny vs → varstr_cat_buf vs s ok = some vs1 → ReachableAny vs1
  | ncat {vs vs1 : varstr} (s : List WChar) (count : Nat) (ok : Bool) :
      ReachableAny vs → varstr_ncat_buf vs s count ok = some vs1 → ReachableAny vs1
  | pushc {vs : varstr} (c : WChar) (ok : Bool) :
      ReachableAny vs → ReachableAny (varstr_pushc_buf vs c ok)

/-- The arrays reachable from `DPA_init` by calls of `DPA_store` and `DPA_rem`,
whether they succeed or fail. -/
inductive DPA_Reachable : DPA → Prop where
  | init {dpa : DPA} : DPA_init true true = some dpa → DPA_Reachable dpa
  | store {dpa : DPA} (obj : Ptr) (re : Option (Int → Ptr)) :
      DPA_Reachable dpa → DPA_Reachable (DPA_store dpa obj re).2
  | rem {dpa : DPA} (obj : Ptr) :
      DPA_Reachable dpa → DPA_Reachable (DPA_rem dpa obj).2

/-- The slot indices read by the steps `tbr = keys[++i]` of the scan loop of
`DPA_rem`, entered with index `i`: every iteration that passes the test `i < used`
ends with the read of slot `i + 1`.  The first argument counts the iterations
still allowed, as in `DPA_rem_loop`. -/
def DPA_rem_loop_reads (used : Int) : Nat → Int → List Int
  | 0, _ => []
  | fuel + 1, i =>
    if i < used then (i + 1) :: DPA_rem_loop_reads used fuel (i + 1) else []

/-- The slot indices `DPA_rem` reads, in order: `keys[0]` in the initialiser of the
loop, the reads of the loop, and `keys[i - 1]` for the swap when `obj` was found. -/
def DPA_rem_reads (dpa : DPA) (obj : Ptr) : List Int :=
  let r := DPA_rem_loop dpa.keys dpa.used obj dpa.used.toNat 0 (-1) (dpa.keys 0)
  let scan := 0 :: DPA_rem_loop_reads dpa.used dpa.used.toNat 0
  if r.2 = -1 then scan else scan ++ [r.1 - 1]

/-- The slot indices `DPA_rem` writes: `keys[j]` and `keys[i - 1]` when `obj` was
found, none otherwise. -/
def DPA_rem_writes (dpa : DPA) (obj : Ptr) : List Int :=
  let r := DPA_rem_loop dpa.keys dpa.used obj dpa.used.toNat 0 (-1) (dpa.keys 0)
  if r.2 = -1 then [] else [r.2, r.1 - 1]

/-- A buffer with one free slot, for the examples. -/
def vsTight : varstr := { str := fun k => if k = 0 then 97 else 0, used := 1, size := 2 }

/-- An array for the examples: slots `0, 1, 2, 3` hold `7, 9, 7, 4`. -/
def dpaExample : DPA :=
  { keys := fun k =>
      if k = 0 then 7 else if k = 1 then 9 else if k = 2 then 7 else if k = 3 then 4 else 0,
    used := 4, size := 25 }

/-- A full array for the examples: one slot, in use, holding `5`. -/
def dpaFull : DPA :=
  { keys := fun k => if k = 0 then 5 else 0, used := 1, size := 1 }

/-- A string of 20 wide characters `'a'`, for the examples. -/
def str20 : List WChar := List.replicate 20 97

/-- The fresh array `DPA_init` returns. -/
def dpaFresh : DPA := { keys := fun _ => NULL, used := 0, size := DPA_START_SIZE }

/-! ## Theorems: the scan loop of `DPA_rem` -/

/-- The loop started at index `i ≤ used` with `tbr = keys[i]` and `used - i`
iterations ends with its index equal to `used`, and its second result is the
highest index in `[i, used)` holding `obj`, or the initial `j` when there is none. -/
theorem DPA_rem_loop_spec (keys : Int → Ptr) (used : Int) (obj : Ptr) :
    ∀ (fuel : Nat) (i j : Int), fuel = (used - i).toNat → i ≤ used →
      (DPA_rem_loop keys used obj fuel i j (keys i)).1 = used ∧
      (((DPA_rem_loop keys used obj fuel i j (keys i)).2 = j ∧
          ∀ k, i ≤ k → k < used → keys k ≠ obj) ∨
        (i ≤ (DPA_rem_loop keys used obj fuel i j (keys i)).2 ∧
          (DPA_rem_loop keys used obj fuel i j (keys i)).2 < used ∧
          keys (DPA_rem_loop keys used obj fuel i j (keys i)).2 = obj ∧
          ∀ k, (DPA_rem_loop keys used obj fuel i j (keys i)).2 < k → k < used →
            keys k ≠ obj)) := by
  intro fuel
  induction fuel with
  | zero =>
    intro i j hf hi
    have hiu : i = used := by omega
    refine ⟨by simp [DPA_rem_loop, hiu], Or.inl ⟨by simp [DPA_rem_loop], ?_⟩⟩
    intro k h1 h2
    omega
  | succ n ih =>
    intro i j hf hi
    have hlt : i < used := by omega
    have hstep : DPA_rem_loop keys used obj (n + 1) i j (keys i)
        = DPA_rem_loop keys used obj n (i + 1) (if keys i = obj then i else j)
            (keys (i + 1)) := by
      simp [DPA_rem_loop, hlt]
    rw [hstep]
    obtain ⟨h1, h2⟩ := ih (i + 1) (if keys i = obj then i else j) (by omega) (by omega)
    refine ⟨h1, ?_⟩
    rcases h2 with ⟨he, hno⟩ | ⟨ha, hb, hc, hd⟩
    · by_cases hk : keys i = obj
      · right
        rw [he, if_pos hk]
        refine ⟨le_refl _, hlt, hk, ?_⟩
        intro k hk1 hk2
        exact hno k (by omega) hk2
      · left
        rw [he, if_neg hk]
        refine ⟨rfl, ?_⟩
        intro k hk1 hk2
        by_cases hki : k = i
        · rw [hki]; exact hk
        · exact hno k (by omega) hk2
    · right
      exact ⟨by omega, hb, hc, hd⟩

/-- With no occurrence of `obj` below `used` the scan leaves `j` at `-1`. -/
theorem DPA_rem_scan_absent (dpa : DPA) (obj : Ptr)
    (habs : ∀ k, 0 ≤ k → k < dpa.used → dpa.keys k ≠ obj) :
    (DPA_rem_loop dpa.keys dpa.used obj dpa.used.toNat 0 (-1) (dpa.keys 0)).2 = -1 := by
  by_cases hu : 0 ≤ dpa.used
  · obtain ⟨_, h⟩ := DPA_rem_loop_spec dpa.keys dpa.used obj dpa.used.toNat 0 (-1)
      (by simp) hu
    rcases h with ⟨he, _⟩ | ⟨ha, hb, hc, _⟩
    · exact he
    · exact absurd hc (habs _ ha hb)
  · have h0 : dpa.used.toNat = 0 := by omega
    rw [h0]
    rfl

/-- With `j` the highest index below `used` holding `obj`, the scan ends with
its index at `used` and `j` as its second result. -/
theorem DPA_rem_scan_present (dpa : DPA) (obj : Ptr) (j : Int)
    (hj0 : 0 ≤ j) (hj : j < dpa.used) (hobj : dpa.keys j = obj)
    (hmax : ∀ k, j < k → k < dpa.used → dpa.keys k ≠ obj) :
    DPA_rem_loop dpa.keys dpa.used obj dpa.used.toNat 0 (-1) (dpa.keys 0)
      = (dpa.used, j) := by
  obtain ⟨h1, h⟩ := DPA_rem_loop_spec dpa.keys dpa.used obj dpa.used.toNat 0 (-1)
    (by simp) (by omega)
  have h2 : (DPA_rem_loop dpa.keys dpa.used obj dpa.used.toNat 0 (-1) (dpa.keys 0)).2 = j := by
    rcases h with ⟨_, hno⟩ | ⟨ha, hb, hc, hd⟩
    · exact absurd hobj (hno j hj0 hj)
    · rcases lt_trichotomy
        (DPA_rem_loop dpa.keys dpa.used obj dpa.used.toNat 0 (-1) (dpa.keys 0)).2 j
        with hlt | heq | hgt
      · exact absurd hobj (hd j hlt hj)
      · exact heq
      · exact absurd hc (hmax _ hgt hb)
  exact Prod.ext h1 h2

/-- The result of `DPA_rem` when `j` is the highest index below `used` holding `obj`. -/
theorem DPA_rem_eq_of_present (dpa : DPA) (obj : Ptr) (j : Int)
    (hj0 : 0 ≤ j) (hj : j < dpa.used) (hobj : dpa.keys j = obj)
    (hmax : ∀ k, j < k → k < dpa.used → dpa.keys k ≠ obj) :
    DPA_rem dpa obj =
      (true, { keys := setSlot (setSlot dpa.keys j (dpa.keys (dpa.used - 1)))
                  (dpa.used - 1) NULL,
               used := dpa.used - 1, size := dpa.size }) := by
  have hs := DPA_rem_scan_present dpa obj j hj0 hj hobj hmax
  have hne : j ≠ -1 := by omega
  simp only [DPA_rem, hs]
  simp [hne]

/-- The array `DPA_rem` leaves when it removes the occurrence at slot `j`. -/
theorem DPA_rem_region_perm (dpa : DPA) (obj : Ptr) (j : Int)
    (hj0 : 0 ≤ j) (hj : j < dpa.used) (hobj : dpa.keys j = obj) :
    dpa.region.Perm
      (obj :: DPA.region
        { keys := setSlot (setSlot dpa.keys j (dpa.keys (dpa.used - 1)))
            (dpa.used - 1) NULL,
          used := dpa.used - 1, size := dpa.size }) := by
  obtain ⟨m, hm⟩ : ∃ m : Nat, dpa.used = (m : Int) + 1 := ⟨(dpa.used - 1).toNat, by omega⟩
  obtain ⟨jn, hjn⟩ : ∃ jn : Nat, j = (jn : Int) := ⟨j.toNat, by omega⟩
  have hjm : jn ≤ m := by omega
  have h1 : ((m : Int) + 1).toNat = m + 1 := by omega
  have h3 : (m : Int) + 1 - 1 = (m : Int) := by omega
  simp only [DPA.region, hm, h1, h3, Int.toNat_ofNat, List.range_succ, List.map_append,
    List.map_cons, List.map_nil]
  -- the new used region, slot by slot
  have hnew : (List.range m).map
        (fun k : Nat => setSlot (setSlot dpa.keys j (dpa.keys (m : Int))) (m : Int) NULL (k : Int))
      = (List.range m).map
        (fun k : Nat => if k = jn then dpa.keys (m : Int) else dpa.keys (k : Int)) := by
    apply List.map_congr_left
    intro k hk
    have hkm : k < m := List.mem_range.mp hk
    have hne : (k : Int) ≠ (m : Int) := by omega
    by_cases hkj : k = jn
    · have hne3 : (jn : Int) ≠ (m : Int) := by omega
      simp [setSlot, hkj, hjn, hne3]
    · have hne2 : (k : Int) ≠ j := by omega
      simp [setSlot, hne, hkj, hne2]
  rw [hnew]
  rcases Nat.lt_or_ge jn m with hlt | hge
  · -- the occurrence is below the last slot: the last value moves into slot `j`
    have hset : (List.range m).map
          (fun k : Nat => if k = jn then dpa.keys (m : Int) else dpa.keys (k : Int))
        = ((List.range m).map (fun k : Nat => dpa.keys (k : Int))).set jn (dpa.keys (m : Int)) := by
      apply List.ext_getElem
      · simp
      · intro n hn1 hn2
        simp only [List.length_map, List.length_range] at hn1
        rw [List.getElem_set]
        by_cases hnj : jn = n
        · simp [hnj]
        · have hnj2 : n ≠ jn := fun h => hnj h.symm
          simp [hnj, hnj2]
    rw [hset]
    have hlen : jn < ((List.range m).map (fun k : Nat => dpa.keys (k : Int))).length := by
      simpa using hlt
    have hget : ((List.range m).map (fun k : Nat => dpa.keys (k : Int)))[jn] = obj := by
      simp [← hjn, hobj]
    have hmem : obj ∈ (List.range m).map (fun k : Nat => dpa.keys (k : Int)) := by
      rw [← hget]
      exact List.getElem_mem _
    rw [List.perm_iff_count]
    intro x
    have hcs := List.count_set (dpa.keys (m : Int)) x
      ((List.range m).map (fun k : Nat => dpa.keys (k : Int))) jn hlen
    rw [hget] at hcs
    have hpos : 0 < List.count obj ((List.range m).map (fun k : Nat => dpa.keys (k : Int))) :=
      List.count_pos_iff.mpr hmem
    simp only [List.count_append, List.count_cons, List.count_nil, hcs]
    by_cases hx : obj = x
    · subst hx
      simp
      omega
    · simp [hx]
  · -- the occurrence is the last slot
    have hjm2 : jn = m := by omega
    have hsame : (List.range m).map
          (fun k : Nat => if k = jn then dpa.keys (m : Int) else dpa.keys (k : Int))
        = (List.range m).map (fun k : Nat => dpa.keys (k : Int)) := by
      apply List.map_congr_left
      intro k hk
      have hkm : k < m := List.mem_range.mp hk
      have hne : k ≠ jn := by omega
      simp [hne]
    have hlast : dpa.keys (m : Int) = obj := by
      rw [← hobj, hjn, hjm2]
    rw [hsame, hlast]
    exact List.perm_append_singleton _ _

/-- The effect of a `DPA_store` that succeeds on an array with `used < size`. -/
theorem DPA_store_ok_spec (dpa : DPA) (obj : Ptr) (re : Option (Int → Ptr))
    (hlt : dpa.used < dpa.size)
    (hok : dpa.size - dpa.used < 2 → re.isSome = true) :
    (DPA_store dpa obj re).1 = obj ∧
    (DPA_store dpa obj re).2.keys dpa.used = obj ∧
    (DPA_store dpa obj re).2.used = dpa.used + 1 ∧
    (∀ k, 0 ≤ k → k < dpa.used → (DPA_store dpa obj re).2.keys k = dpa.keys k) := by
  by_cases hg : dpa.size - dpa.used < 2
  · cases re with
    | none => simp at hok; omega
    | some g =>
      have heq : DPA_store dpa obj (some g) =
          (obj, { keys := setSlot
                    (fun k => if 0 ≤ k ∧ k < dpa.size then dpa.keys k else g k)
                    dpa.used obj,
                  used := dpa.used + 1, size := dpa.size + DPA_REFILL_SIZE }) := by
        simp [DPA_store, hg]
      rw [heq]
      refine ⟨rfl, by simp [setSlot], rfl, ?_⟩
      intro k hk0 hk
      have hne : k ≠ dpa.used := by omega
      have hks : k < dpa.size := by omega
      simp [setSlot, hne, hk0, hks]
  · have heq : DPA_store dpa obj re =
        (obj, { keys := setSlot dpa.keys dpa.used obj,
                used := dpa.used + 1, size := dpa.size }) := by
      simp [DPA_store, hg]
    rw [heq]
    refine ⟨rfl, by simp [setSlot], rfl, ?_⟩
    intro k _ hk
    have hne : k ≠ dpa.used := by omega
    simp [setSlot, hne]

/-- A successful `DPA_store` keeps `0 ≤ used < size`. -/
theorem DPA_store_bounds (dpa : DPA) (obj : Ptr) (g : Int → Ptr)
    (h0 : 0 ≤ dpa.used) (hlt : dpa.used < dpa.size) :
    0 ≤ (DPA_store dpa obj (some g)).2.used ∧
    (DPA_store dpa obj (some g)).2.used < (DPA_store dpa obj (some g)).2.size := by
  by_cases hg : dpa.size - dpa.used < 2
  · simp only [DPA_store, hg, if_true, DPA_REFILL_SIZE]
    constructor <;> omega
  · simp only [DPA_store, hg, if_false]
    constructor <;> omega

/-- Storing a list of references on an array with `0 ≤ used < size`: `used` grows
by the length of the list, the slots below the old `used` are kept, and the
references land in order from the old `used` on. -/
theorem DPA_store_all_spec :
    ∀ (rs : List (Ptr × (Int → Ptr))) (dpa : DPA), 0 ≤ dpa.used → dpa.used < dpa.size →
      (DPA_store_all dpa rs).used = dpa.used + rs.length ∧
      (∀ k, 0 ≤ k → k < dpa.used → (DPA_store_all dpa rs).keys k = dpa.keys k) ∧
      (∀ (i : Nat) (h : i < rs.length),
        (DPA_store_all dpa rs).keys (dpa.used + i) = (rs.get ⟨i, h⟩).1) := by
  intro rs
  induction rs with
  | nil =>
    intro dpa _ _
    refine ⟨by simp [DPA_store_all], fun k _ _ => rfl, ?_⟩
    intro i h
    exact absurd h (Nat.not_lt_zero i)
  | cons r rest ih =>
    intro dpa h0 hlt
    obtain ⟨obj, g⟩ := r
    obtain ⟨hb0, hb1⟩ := DPA_store_bounds dpa obj g h0 hlt
    obtain ⟨_, hs2, hs3, hs4⟩ := DPA_store_ok_spec dpa obj (some g) hlt (fun _ => rfl)
    obtain ⟨ih1, ih2, ih3⟩ := ih (DPA_store dpa obj (some g)).2 hb0 hb1
    have hunf : DPA_store_all dpa ((obj, g) :: rest)
        = DPA_store_all (DPA_store dpa obj (some g)).2 rest := rfl
    rw [hunf]
    refine ⟨?_, ?_, ?_⟩
    · rw [ih1, hs3]
      simp only [List.length_cons]
      push_cast
      omega
    · intro k hk0 hk
      rw [ih2 k hk0 (by omega)]
      exact hs4 k hk0 hk
    · intro i h
      cases i with
      | zero =>
        simp only [Nat.cast_zero, add_zero]
        rw [ih2 dpa.used h0 (by omega)]
        exact hs2
      | succ n =>
        have hn : n < rest.length := by simpa using h
        have := ih3 n hn
        rw [hs3] at this
        have hidx : dpa.used + ((n + 1 : Nat) : Int) = dpa.used + 1 + (n : Int) := by
          push_cast
          omega
        rw [hidx, this]
        rfl

/-! ## Theorems: scanning and writing the variable string -/

/-- The scan returns `len` when slot `len` is the first terminator from `i` on and
the scan may read that far. -/
theorem wcslenFrom_eq (m : Int → WChar) :
    ∀ (fuel : Nat) (i len : Int), i ≤ len → len < i + fuel → m len = 0 →
      (∀ k, i ≤ k → k < len → m k ≠ 0) → wcslenFrom m fuel i = some len := by
  intro fuel
  induction fuel with
  | zero =>
    intro i len h1 h2 _ _
    simp at h2
    omega
  | succ n ih =>
    intro i len h1 h2 hz hnz
    by_cases hi : m i = 0
    · have hil : i = len := by
        by_contra hne
        exact hnz i (le_refl _) (by omega) hi
      subst hil
      simp [wcslenFrom, hi]
    · have hne : i ≠ len := fun h => hi (h ▸ hz)
      have hstep : wcslenFrom m (n + 1) i = wcslenFrom m n (i + 1) := by
        simp [wcslenFrom, hi]
      rw [hstep]
      exact ih (i + 1) len (by omega) (by push_cast at h2; omega) hz
        (fun k hk1 hk2 => hnz k (by omega) hk2)

/-- A terminator at `u`, within reach of the scan, makes the scan succeed; it
returns the first terminator. -/
theorem wcslenFrom_exists (m : Int → WChar) :
    ∀ (fuel : Nat) (i u : Int), i ≤ u → u < i + fuel → m u = 0 →
      ∃ len, wcslenFrom m fuel i = some len ∧ i ≤ len ∧ len ≤ u ∧ m len = 0 ∧
        ∀ k, i ≤ k → k < len → m k ≠ 0 := by
  intro fuel
  induction fuel with
  | zero =>
    intro i u h1 h2 _
    simp at h2
    omega
  | succ n ih =>
    intro i u h1 h2 hz
    by_cases hi : m i = 0
    · refine ⟨i, by simp [wcslenFrom, hi], le_refl _, h1, hi, ?_⟩
      intro k hk1 hk2
      omega
    · have hne : i ≠ u := fun h => hi (h ▸ hz)
      have hstep : wcslenFrom m (n + 1) i = wcslenFrom m n (i + 1) := by
        simp [wcslenFrom, hi]
      obtain ⟨len, h3, h4, h5, h6, h7⟩ :=
        ih (i + 1) u (by omega) (by push_cast at h2; omega) hz
      refine ⟨len, by rw [hstep, h3], by omega, h5, h6, ?_⟩
      intro k hk1 hk2
      by_cases hki : k = i
      · rw [hki]; exact hi
      · exact h7 k (by omega) hk2

/-- The length found in a buffer of `cap` slots whose first terminator is at `len`. -/
theorem wcslen_eq (m : Int → WChar) (cap len : Int) (h0 : 0 ≤ len) (hlt : len < cap)
    (hz : m len = 0) (hnz : ∀ k, 0 ≤ k → k < len → m k ≠ 0) :
    wcslen m cap = some len :=
  wcslenFrom_eq m cap.toNat 0 len h0 (by omega) hz hnz

/-- Under the invariant the buffer holds a terminated string no longer than `used`. -/
theorem varstr.Inv.terminated {vs : varstr} (h : vs.Inv) :
    ∃ len, wcslen vs.str vs.size = some len ∧ 0 ≤ len ∧ len ≤ vs.used ∧
      vs.str len = 0 ∧ ∀ k, 0 ≤ k → k < len → vs.str k ≠ 0 := by
  obtain ⟨h0, h1, h2⟩ := h
  exact wcslenFrom_exists vs.str vs.size.toNat 0 vs.used h0 (by omega)
    (h2 vs.used (le_refl _) h1)

/-- The characters of the characters-then-terminator written by `appendAt`. -/
theorem appendAt_chars (m : Int → WChar) (len : Int) (chars : List WChar) (i : Nat)
    (hi : i < chars.length) : appendAt m len chars (len + i) = chars.get ⟨i, hi⟩ := by
  have h1 : len ≤ len + (i : Int) ∧ len + (i : Int) < len + (chars.length : Int) := by
    constructor <;> omega
  have h2 : (len + (i : Int) - len).toNat = i := by omega
  simp only [appendAt, h1, and_self, if_true, h2]
  simp [List.getD_eq_getElem?_getD, List.getElem?_eq_getElem hi]

/-- The terminator written by `appendAt`. -/
theorem appendAt_end (m : Int → WChar) (len : Int) (chars : List WChar) :
    appendAt m len chars (len + chars.length) = 0 := by
  simp [appendAt]

/-- The slots `appendAt` leaves alone. -/
theorem appendAt_other (m : Int → WChar) (len : Int) (chars : List WChar) (k : Int)
    (hk : k < len ∨ len + chars.length < k) : appendAt m len chars k = m k := by
  have h1 : ¬ (len ≤ k ∧ k < len + (chars.length : Int)) := by omega
  have h2 : k ≠ len + (chars.length : Int) := by omega
  simp [appendAt, h1, h2]

/-- The string read back after `appendAt`: the old string followed by `chars`. -/
theorem appendAt_range (m : Int → WChar) (len : Nat) (chars : List WChar) :
    (List.range ((len : Int) + (chars.length : Int)).toNat).map
        (fun (k : Nat) => appendAt m len chars (k : Int))
      = (List.range len).map (fun (k : Nat) => m (k : Int)) ++ chars := by
  have h1 : ((len : Int) + (chars.length : Int)).toNat = len + chars.length := by omega
  rw [h1, List.range_add, List.map_append, List.map_map]
  congr 1
  · apply List.map_congr_left
    intro k hk
    have hkl : k < len := List.mem_range.mp hk
    exact appendAt_other m len chars k (Or.inl (by omega))
  · apply List.ext_getElem
    · simp
    · intro n hn1 hn2
      simp only [List.getElem_map, List.getElem_range, Function.comp]
      have := appendAt_chars m len chars n hn2
      simp only [List.get_eq_getElem] at this
      rw [← this]
      congr 1

/-! ## Theorems: the invariant of the variable string -/

/-- The fresh buffer satisfies the invariant. -/
theorem vsFresh_inv : vsFresh.Inv :=
  ⟨le_refl _, by decide, fun _ _ _ => rfl⟩

/-- With `realloc` succeeding, `varstr_refill_if_needed` succeeds. -/
theorem varstr_refill_ok (vs : varstr) (iu : Int) :
    ∃ vs1, varstr_refill_if_needed vs iu true = some vs1 := by
  by_cases hc : vs.size - vs.used ≤ iu
  · exact ⟨_, by simp only [varstr_refill_if_needed, hc, if_true]; rfl⟩
  · exact ⟨vs, by simp [varstr_refill_if_needed, hc]⟩

/-- A successful `varstr_refill_if_needed` keeps the invariant, `used` and the slots
below the old `size`, and leaves more than `iu` slots free. -/
theorem varstr_refill_spec (vs vs1 : varstr) (iu : Int) (ok : Bool) (hinv : vs.Inv)
    (h : varstr_refill_if_needed vs iu ok = some vs1) :
    vs1.Inv ∧ vs1.used = vs.used ∧ iu < vs1.size - vs1.used ∧ vs.size ≤ vs1.size ∧
      ∀ k, k < vs.size → vs1.str k = vs.str k := by
  obtain ⟨h0, h1, h2⟩ := hinv
  by_cases hc : vs.size - vs.used ≤ iu
  · cases ok with
    | false => simp [varstr_refill_if_needed, hc] at h
    | true =>
      simp only [varstr_refill_if_needed, hc, if_true, VARSTR_REFILL_SIZE] at h
      have h' := Option.some.inj h
      subst h'
      refine ⟨⟨h0, by dsimp only; omega, ?_⟩, rfl, by dsimp only; omega,
        by dsimp only; omega, ?_⟩
      · intro k hk1 hk2
        dsimp only at hk1 hk2 ⊢
        by_cases hks : vs.size ≤ k ∧ k < vs.size + (iu + 5)
        · simp [hks]
        · rw [if_neg hks]
          exact h2 k hk1 (by omega)
      · intro k hk
        dsimp only
        have hks : ¬ (vs.size ≤ k ∧ k < vs.size + (iu + 5)) := by omega
        rw [if_neg hks]
  · have h' : vs = vs1 := by
      simpa [varstr_refill_if_needed, hc] using h
    subst h'
    exact ⟨⟨h0, h1, h2⟩, rfl, by omega, le_refl _, fun _ _ => rfl⟩

/-- The string of a buffer whose first terminator is at `len`. -/
theorem varstr_content_eq (vs : varstr) (len : Int) (h0 : 0 ≤ len) (hlt : len < vs.size)
    (hz : vs.str len = 0) (hnz : ∀ k, 0 ≤ k → k < len → vs.str k ≠ 0) :
    vs.content = some ((List.range len.toNat).map (fun (k : Nat) => vs.str (k : Int))) := by
  simp [varstr.content, wcslen_eq vs.str vs.size len h0 hlt hz hnz]

/-- A successful `varstr_refill_if_needed` does not change the string. -/
theorem varstr_refill_content (vs vs1 : varstr) (iu : Int) (ok : Bool) (hinv : vs.Inv)
    (h : varstr_refill_if_needed vs iu ok = some vs1) :
    vs1.content = vs.content := by
  obtain ⟨_, _, _, hsz, hsame⟩ := varstr_refill_spec vs vs1 iu ok hinv h
  obtain ⟨len, _, hl0, hl1, hl2, hl3⟩ := hinv.terminated
  have hlt : len < vs.size := lt_of_le_of_lt hl1 hinv.2.1
  rw [varstr_content_eq vs len hl0 hlt hl2 hl3,
    varstr_content_eq vs1 len hl0 (by omega) (by rw [hsame len hlt]; exact hl2)
      (fun k hk0 hk => by rw [hsame k (by omega)]; exact hl3 k hk0 hk)]
  congr 1
  apply List.map_congr_left
  intro k hk
  have hkl : k < len.toNat := List.mem_range.mp hk
  exact hsame k (by omega)

/-- Writing terminator-free `chars` at the end of the string and adding `inc` to
`used`, where `inc` is more than the number of characters and less than the
free room: the invariant is kept and the string is the old one followed by
`chars`. -/
theorem varstr_append_spec (vs : varstr) (hinv : vs.Inv) (chars : List WChar)
    (hnz : ∀ c ∈ chars, c ≠ 0) (inc : Int) (hinc : (chars.length : Int) + 1 ≤ inc)
    (hroom : inc < vs.size - vs.used) :
    ∃ len old, wcslen vs.str vs.size = some len ∧ vs.content = some old ∧
      varstr.Inv { str := appendAt vs.str len chars, used := vs.used + inc, size := vs.size } ∧
      varstr.content
          { str := appendAt vs.str len chars, used := vs.used + inc, size := vs.size }
        = some (old ++ chars) := by
  obtain ⟨len, hw, hl0, hl1, hl2, hl3⟩ := hinv.terminated
  obtain ⟨h0, h1, h2⟩ := hinv
  obtain ⟨ln, hln⟩ : ∃ ln : Nat, len = (ln : Int) := ⟨len.toNat, by omega⟩
  subst hln
  refine ⟨ln, (List.range ln).map (fun (k : Nat) => vs.str (k : Int)), hw, ?_, ?_, ?_⟩
  · simp [varstr.content, hw]
  · refine ⟨by dsimp only; omega, by dsimp only; omega, ?_⟩
    intro k hk1 hk2
    dsimp only at hk1 hk2 ⊢
    rw [appendAt_other vs.str ln chars k (Or.inr (by omega))]
    exact h2 k (by omega) hk2
  · rw [varstr_content_eq _ ((ln : Int) + (chars.length : Int)) (by omega)
      (by dsimp only; omega) (appendAt_end vs.str ln chars) ?_]
    · exact congrArg some (appendAt_range vs.str ln chars)
    · intro k hk0 hk
      dsimp only
      by_cases hkl : k < (ln : Int)
      · rw [appendAt_other vs.str ln chars k (Or.inl hkl)]
        exact hl3 k hk0 hkl
      · obtain ⟨i, hi⟩ : ∃ i : Nat, k = (ln : Int) + (i : Int) := ⟨(k - ln).toNat, by omega⟩
        have hil : i < chars.length := by omega
        rw [hi, appendAt_chars vs.str ln chars i hil]
        exact hnz _ (List.get_mem chars i hil)

/-- The characters of a C string are not terminators. -/
theorem cstr_ne_zero (s : List WChar) : ∀ c ∈ cstr s, c ≠ 0 := by
  intro c hc
  have := List.mem_takeWhile_imp hc
  simpa using this

/-- A terminator-free sequence is the C string it denotes. -/
theorem cstr_eq_self (s : List WChar) (h : ∀ c ∈ s, c ≠ 0) : cstr s = s := by
  apply List.takeWhile_eq_self_iff.mpr
  intro c hc
  simpa using h c hc

/-- On a buffer satisfying the invariant, `varstr_cat` succeeds when `realloc` does, and
a successful call keeps the invariant, adds the length of the string plus one
to `used`, and appends the string to the string in the buffer. -/
theorem varstr_cat_spec (vs : varstr) (hinv : vs.Inv) (s : List WChar) (ok : Bool) :
    (ok = true → ∃ vs1, varstr_cat vs s ok = Res.ok vs1) ∧
    ∀ vs1, varstr_cat vs s ok = Res.ok vs1 →
      vs1.Inv ∧ vs1.used = vs.used + (((cstr s).length : Int) + 1) ∧
      ∃ old, vs.content = some old ∧ vs1.content = some (old ++ cstr s) := by
  cases hre : varstr_refill_if_needed vs (((cstr s).length : Int) + 1) ok with
  | none =>
    constructor
    · intro hok
      subst hok
      obtain ⟨v, hv⟩ := varstr_refill_ok vs (((cstr s).length : Int) + 1)
      rw [hv] at hre
      exact absurd hre (by simp)
    · intro vs1 h
      simp [varstr_cat, hre] at h
  | some vs0 =>
    obtain ⟨hinv0, hu, hroom, _, _⟩ :=
      varstr_refill_spec vs vs0 _ ok hinv hre
    have hcont := varstr_refill_content vs vs0 _ ok hinv hre
    obtain ⟨len, old, hw, hold, hi2, hc2⟩ :=
      varstr_append_spec vs0 hinv0 (cstr s) (cstr_ne_zero s)
        (((cstr s).length : Int) + 1) (le_refl _) hroom
    have heq : varstr_cat vs s ok = Res.ok
        { str := appendAt vs0.str len (cstr s),
          used := vs0.used + (((cstr s).length : Int) + 1), size := vs0.size } := by
      simp [varstr_cat, hre, wcscat, hw]
    refine ⟨fun _ => ⟨_, heq⟩, ?_⟩
    intro vs1 h
    rw [heq] at h
    have h' := Res.ok.inj h
    subst h'
    exact ⟨hi2, by dsimp only; rw [hu], old, by rw [← hcont]; exact hold, hc2⟩

/-- The `int` the refill of `varstr_ncat` receives is `count + 1` when that fits an
`int`. -/
theorem int_of_size_t_count (count : Nat) (h : (count : Int) + 1 ≤ INT_MAX) :
    int_of_size_t (size_t_add count 1) = (count : Int) + 1 := by
  simp only [int_of_size_t, size_t_add, INT_MAX] at *
  split <;> omega

/-- The value `vs->used += (count + 1)` stores is `used + count + 1` when `used` is an
`int` and the sum fits an `int`. -/
theorem int_of_size_t_used (u : Int) (count : Nat) (hmin : INT_MIN ≤ u)
    (hmax : u + ((count : Int) + 1) ≤ INT_MAX) :
    int_of_size_t (size_t_add (size_t_of_int u) (size_t_add count 1))
      = u + ((count : Int) + 1) := by
  simp only [int_of_size_t, size_t_add, size_t_of_int, INT_MAX, INT_MIN] at *
  split <;> omega

/-- On a buffer satisfying the invariant, with `used + count + 1` within `int`,
`varstr_ncat` succeeds when `realloc` does, and a successful call keeps the
invariant, adds `count + 1` to `used`, and appends the first `count` characters
of the string to the string in the buffer. -/
theorem varstr_ncat_spec (vs : varstr) (hinv : vs.Inv) (s : List WChar) (count : Nat)
    (ok : Bool) (hfit : vs.used + ((count : Int) + 1) ≤ INT_MAX) :
    (ok = true → ∃ vs1, varstr_ncat vs s count ok = Res.ok vs1) ∧
    ∀ vs1, varstr_ncat vs s count ok = Res.ok vs1 →
      vs1.Inv ∧ vs1.used = vs.used + ((count : Int) + 1) ∧
      ∃ old, vs.content = some old ∧ vs1.content = some (old ++ (cstr s).take count) := by
  have hiu : int_of_size_t (size_t_add count 1) = (count : Int) + 1 :=
    int_of_size_t_count count (by have := hinv.1; omega)
  cases hre : varstr_refill_if_needed vs ((count : Int) + 1) ok with
  | none =>
    constructor
    · intro hok
      subst hok
      obtain ⟨v, hv⟩ := varstr_refill_ok vs ((count : Int) + 1)
      rw [hv] at hre
      exact absurd hre (by simp)
    · intro vs1 h
      simp [varstr_ncat, hiu, hre] at h
  | some vs0 =>
    obtain ⟨hinv0, hu, hroom, _, _⟩ :=
      varstr_refill_spec vs vs0 _ ok hinv hre
    have hcont := varstr_refill_content vs vs0 _ ok hinv hre
    have hused : int_of_size_t (size_t_add (size_t_of_int vs0.used) (size_t_add count 1))
        = vs0.used + ((count : Int) + 1) :=
      int_of_size_t_used vs0.used count
        (by have := hinv0.1; simp only [INT_MIN]; omega) (by rw [hu]; exact hfit)
    have hlen : (((cstr s).take count).length : Int) + 1 ≤ (count : Int) + 1 := by
      have : ((cstr s).take count).length ≤ count := by
        rw [List.length_take]
        exact Nat.min_le_left _ _
      omega
    obtain ⟨len, old, hw, hold, hi2, hc2⟩ :=
      varstr_append_spec vs0 hinv0 ((cstr s).take count)
        (fun c hc => cstr_ne_zero s c (List.mem_of_mem_take hc))
        ((count : Int) + 1) hlen hroom
    have heq : varstr_ncat vs s count ok = Res.ok
        { str := appendAt vs0.str len ((cstr s).take count),
          used := vs0.used + ((count : Int) + 1), size := vs0.size } := by
      simp [varstr_ncat, hiu, hre, wcsncat, hw, hused]
    refine ⟨fun _ => ⟨_, heq⟩, ?_⟩
    intro vs1 h
    rw [heq] at h
    have h' := Res.ok.inj h
    subst h'
    exact ⟨hi2, by dsimp only; rw [hu], old, by rw [← hcont]; exact hold, hc2⟩

/-- A successful `varstr_pushc` keeps the invariant. -/
theorem varstr_pushc_inv (vs vs1 : varstr) (hinv : vs.Inv) (c : WChar) (ok : Bool)
    (h : varstr_pushc vs c ok = some vs1) : vs1.Inv := by
  cases hre : varstr_refill_if_needed vs 2 ok with
  | none => simp [varstr_pushc, hre] at h
  | some vs0 =>
    obtain ⟨⟨h0, h1, h2⟩, _, hroom, _, _⟩ :=
      varstr_refill_spec vs vs0 2 ok hinv hre
    simp only [varstr_pushc, hre] at h
    have h' := Option.some.inj h
    subst h'
    refine ⟨by dsimp only; omega, by dsimp only; omega, ?_⟩
    intro k hk1 hk2
    dsimp only at hk1 hk2 ⊢
    have hne : k ≠ vs0.used := by omega
    simp only [setSlot, hne, if_false]
    exact h2 k (by omega) hk2

/-- Under the invariant the string in the buffer has at most `used` characters. -/
theorem varstr.Inv.content_length_le {vs : varstr} (h : vs.Inv) (c : List WChar)
    (hc : vs.content = some c) : (c.length : Int) ≤ vs.used := by
  obtain ⟨len, hw, hl0, hl1, _, _⟩ := h.terminated
  simp only [varstr.content, hw, Option.map_some', Option.some.injEq] at hc
  rw [← hc]
  simp only [List.length_map, List.length_range]
  omega

/-- Successive `varstr_cat` calls on a buffer satisfying the invariant all succeed
and append the C strings in order. -/
theorem varstr_cat_all_spec :
    ∀ (ss : List (List WChar)) (vs : varstr) (old : List WChar), vs.Inv →
      vs.content = some old →
      ∃ v, varstr_cat_all vs ss = Res.ok v ∧ v.Inv ∧
        v.content = some (old ++ (ss.map cstr).flatten) := by
  intro ss
  induction ss with
  | nil =>
    intro vs old hinv hc
    exact ⟨vs, rfl, hinv, by simpa using hc⟩
  | cons s rest ih =>
    intro vs old hinv hc
    obtain ⟨hex, hspec⟩ := varstr_cat_spec vs hinv s true
    obtain ⟨vs1, h1⟩ := hex rfl
    obtain ⟨hinv1, _, old1, ho1, hc1⟩ := hspec vs1 h1
    have hoo : old1 = old := Option.some.inj (ho1.symm.trans hc)
    subst hoo
    obtain ⟨v, hv1, hv2, hv3⟩ := ih vs1 (old1 ++ cstr s) hinv1 hc1
    refine ⟨v, ?_, hv2, ?_⟩
    · simp only [varstr_cat_all, h1]
      exact hv1
    · rw [hv3]
      simp

/-! ## Theorems: the claims on the pointer array -/

/-- C1: `DPA_rem` on a present reference.  With `j` the highest index below `used`
holding `obj`, the call returns true, `used` decreases by exactly 1, `size` is
unchanged, the slot at the old `used - 1` is `NULL`, slot `j` (when it is not that
last slot) holds what the last used slot held, and every other slot is
unchanged.  The bound `used < size` of the claim is not needed. -/
theorem DPA_rem_present (dpa : DPA) (obj : Ptr) (j : Int)
    (hj0 : 0 ≤ j) (hj : j < dpa.used) (hobj : dpa.keys j = obj)
    (hmax : ∀ k, j < k → k < dpa.used → dpa.keys k ≠ obj) :
    (DPA_rem dpa obj).1 = true ∧
    (DPA_rem dpa obj).2.used = dpa.used - 1 ∧
    (DPA_rem dpa obj).2.size = dpa.size ∧
    (DPA_rem dpa obj).2.keys (dpa.used - 1) = NULL ∧
    (j ≠ dpa.used - 1 → (DPA_rem dpa obj).2.keys j = dpa.keys (dpa.used - 1)) ∧
    (∀ k, k ≠ j → k ≠ dpa.used - 1 → (DPA_rem dpa obj).2.keys k = dpa.keys k) := by
  rw [DPA_rem_eq_of_present dpa obj j hj0 hj hobj hmax]
  refine ⟨rfl, rfl, rfl, by simp [setSlot], ?_, ?_⟩
  · intro hne
    simp [setSlot, hne]
  · intro k hk1 hk2
    simp [setSlot, hk1, hk2]

/-- Witness of C1: in the example array the highest slot holding `7` is slot 2. -/
theorem DPA_rem_present_witness :
    (DPA_rem dpaExample 7).1 = true ∧
    (DPA_rem dpaExample 7).2.used = dpaExample.used - 1 ∧
    (DPA_rem dpaExample 7).2.size = dpaExample.size ∧
    (DPA_rem dpaExample 7).2.keys (dpaExample.used - 1) = NULL ∧
    ((2 : Int) ≠ dpaExample.used - 1 →
      (DPA_rem dpaExample 7).2.keys 2 = dpaExample.keys (dpaExample.used - 1)) ∧
    (∀ k, k ≠ 2 → k ≠ dpaExample.used - 1 →
      (DPA_rem dpaExample 7).2.keys k = dpaExample.keys k) :=
  DPA_rem_present dpaExample 7 2 (by decide) (by decide) (by decide)
    (by
      intro k h1 h2
      have h3 : k = 3 := by
        have : k < 4 := h2
        omega
      rw [h3]
      decide)

/-- C2: `DPA_rem` on an absent reference.  When `obj` is in none of the slots
`0 .. used-1`, the call returns false and the array (`used`, `size` and every
slot) is the one it was given. -/
theorem DPA_rem_absent (dpa : DPA) (obj : Ptr)
    (habs : ∀ k, 0 ≤ k → k < dpa.used → dpa.keys k ≠ obj) :
    DPA_rem dpa obj = (false, dpa) := by
  have hs := DPA_rem_scan_absent dpa obj habs
  simp only [DPA_rem, hs]
  simp

/-- Witness of C2: `8` is not in the example array. -/
theorem DPA_rem_absent_witness : DPA_rem dpaExample 8 = (false, dpaExample) :=
  DPA_rem_absent dpaExample 8
    (by
      intro k h1 h2
      have h3 : k < 4 := h2
      have h4 : k = 0 ∨ k = 1 ∨ k = 2 ∨ k = 3 := by omega
      rcases h4 with h | h | h | h <;> rw [h] <;> decide)

/-- C3: duplicate removal rule.  When `obj` occurs `k ≥ 1` times in the used
region, one call of `DPA_rem` succeeds and removes the occurrence at the highest
index `j`: every slot of the new used region holds what it held, except slot `j`,
which holds the old last element.  Exactly `k - 1` occurrences of `obj` remain,
the number of occurrences of every other reference is unchanged, and the new
used region is a permutation of the old one with one `obj` erased. -/
theorem DPA_rem_duplicate (dpa : DPA) (obj : Ptr) (k : Nat) (hk : 1 ≤ k)
    (hcount : dpa.region.count obj = k) :
    ∃ j : Int, 0 ≤ j ∧ j < dpa.used ∧ dpa.keys j = obj ∧
      (∀ i, j < i → i < dpa.used → dpa.keys i ≠ obj) ∧
      (DPA_rem dpa obj).1 = true ∧
      (DPA_rem dpa obj).2.used = dpa.used - 1 ∧
      (∀ i, 0 ≤ i → i < dpa.used - 1 →
        (DPA_rem dpa obj).2.keys i = if i = j then dpa.keys (dpa.used - 1) else dpa.keys i) ∧
      (DPA_rem dpa obj).2.region.count obj = k - 1 ∧
      (∀ x, x ≠ obj → (DPA_rem dpa obj).2.region.count x = dpa.region.count x) ∧
      (DPA_rem dpa obj).2.region.Perm (dpa.region.erase obj) := by
  have hmem : obj ∈ dpa.region := List.count_pos_iff.mp (by omega)
  obtain ⟨n, hn, hnobj⟩ := List.mem_map.mp hmem
  have hnlt : n < dpa.used.toNat := List.mem_range.mp hn
  have hu : 0 ≤ dpa.used := by omega
  obtain ⟨_, hscan⟩ := DPA_rem_loop_spec dpa.keys dpa.used obj dpa.used.toNat 0 (-1)
    (by simp) hu
  rcases hscan with ⟨_, hno⟩ | ⟨hj0, hj, hobj, hmax⟩
  · exact absurd hnobj (hno n (by omega) (by omega))
  · refine ⟨_, hj0, hj, hobj, hmax, ?_⟩
    have hperm := DPA_rem_region_perm dpa obj _ hj0 hj hobj
    rw [DPA_rem_eq_of_present dpa obj _ hj0 hj hobj hmax]
    refine ⟨rfl, rfl, ?_, ?_, ?_, ?_⟩ <;> dsimp only
    · intro i _ hi
      have hne : i ≠ dpa.used - 1 := by omega
      simp only [setSlot, hne, if_false]
    · have hc := hperm.count_eq obj
      rw [hcount, List.count_cons_self] at hc
      omega
    · intro x hx
      have hc := hperm.count_eq x
      rw [List.count_cons_of_ne hx] at hc
      exact hc.symm
    · have h1 : (obj :: dpa.region.erase obj).Perm
          (obj :: DPA.region
            { keys := setSlot (setSlot dpa.keys
                (DPA_rem_loop dpa.keys dpa.used obj dpa.used.toNat 0 (-1) (dpa.keys 0)).2
                (dpa.keys (dpa.used - 1))) (dpa.used - 1) NULL,
              used := dpa.used - 1, size := dpa.size }) :=
        (List.perm_cons_erase hmem).symm.trans hperm
      exact (List.Perm.cons_inv h1).symm

/-- Witness of C3: `7` occurs twice in the example array. -/
theorem DPA_rem_duplicate_witness :
    ∃ j : Int, 0 ≤ j ∧ j < dpaExample.used ∧ dpaExample.keys j = 7 ∧
      (∀ i, j < i → i < dpaExample.used → dpaExample.keys i ≠ 7) ∧
      (DPA_rem dpaExample 7).1 = true ∧
      (DPA_rem dpaExample 7).2.used = dpaExample.used - 1 ∧
      (∀ i, 0 ≤ i → i < dpaExample.used - 1 →
        (DPA_rem dpaExample 7).2.keys i
          = if i = j then dpaExample.keys (dpaExample.used - 1) else dpaExample.keys i) ∧
      (DPA_rem dpaExample 7).2.region.count 7 = 2 - 1 ∧
      (∀ x, x ≠ 7 → (DPA_rem dpaExample 7).2.region.count x = dpaExample.region.count x) ∧
      (DPA_rem dpaExample 7).2.region.Perm (dpaExample.region.erase 7) :=
  DPA_rem_duplicate dpaExample 7 2 (by decide) (by decide)

/-- C4: growth correctness.  `DPA_init` with both allocations succeeding gives an
array on which storing any references `r_0 .. r_{N-1}` in order, every
reallocation succeeding whatever it puts in the slots it adds, leaves
`used = N` and `r_i` in slot `i` for every `i < N`. -/
theorem DPA_store_growth (rs : List (Ptr × (Int → Ptr))) :
    ∃ d0, DPA_init true true = some d0 ∧
      (DPA_store_all d0 rs).used = rs.length ∧
      ∀ (i : Nat) (h : i < rs.length), (DPA_store_all d0 rs).keys i = (rs.get ⟨i, h⟩).1 := by
  refine ⟨{ keys := fun _ => NULL, used := 0, size := DPA_START_SIZE }, rfl, ?_⟩
  obtain ⟨h1, _, h3⟩ := DPA_store_all_spec rs
    { keys := fun _ => NULL, used := 0, size := DPA_START_SIZE } (le_refl _) (by decide)
  refine ⟨by simpa using h1, ?_⟩
  intro i h
  simpa using h3 i h

/-- C5: a single `DPA_store` that succeeds (no growth is needed, or `realloc`
succeeds) returns `obj`, writes `obj` into the slot at the old `used`,
increments `used` by exactly 1 and leaves every slot below the old `used`
unchanged.  The bound `0 ≤ used` of the claim is not needed. -/
theorem DPA_store_step (dpa : DPA) (obj : Ptr) (re : Option (Int → Ptr))
    (hlt : dpa.used < dpa.size)
    (hok : dpa.size - dpa.used < 2 → re.isSome = true) :
    (DPA_store dpa obj re).1 = obj ∧
    (DPA_store dpa obj re).2.keys dpa.used = obj ∧
    (DPA_store dpa obj re).2.used = dpa.used + 1 ∧
    (∀ k, 0 ≤ k → k < dpa.used → (DPA_store dpa obj re).2.keys k = dpa.keys k) := by
  exact DPA_store_ok_spec dpa obj re hlt hok

/-- Witness of C5: storing `11` in the example array, no growth needed. -/
theorem DPA_store_step_witness :
    (DPA_store dpaExample 11 none).1 = 11 ∧
    (DPA_store dpaExample 11 none).2.keys dpaExample.used = 11 ∧
    (DPA_store dpaExample 11 none).2.used = dpaExample.used + 1 ∧
    (∀ k, 0 ≤ k → k < dpaExample.used →
      (DPA_store dpaExample 11 none).2.keys k = dpaExample.keys k) :=
  DPA_store_step dpaExample 11 none (by decide) (by decide)

/-- C10: store failure is atomic.  When `DPA_store` has to grow
(`size - used < 2`) and `realloc` fails, it returns `NULL` and the array
(`used`, `size` and every slot) is the one it was given. -/
theorem DPA_store_fail (dpa : DPA) (obj : Ptr) (hg : dpa.size - dpa.used < 2) :
    DPA_store dpa obj none = (NULL, dpa) := by
  simp [DPA_store, hg]

/-- Witness of C10: a full one-slot array whose reallocation fails. -/
theorem DPA_store_fail_witness : DPA_store dpaFull 9 none = (NULL, dpaFull) :=
  DPA_store_fail dpaFull 9 (by decide)

/-! ## Theorems: the claims on the variable string -/

/-- C6: concatenation then pack.  For terminator-free sequences `s_1 .. s_n`,
`varstr_init`, then `varstr_cat` with each of them in order, then `varstr_pack`,
every allocation succeeding, all succeed, and the packed string is
`s_1 ++ ... ++ s_n` followed by one terminator; what is copied fits in the
block allocated for it. -/
theorem varstr_cat_pack (ss : List (List WChar)) (hfree : ∀ s ∈ ss, ∀ c ∈ s, c ≠ 0) :
    ∃ v0 v p, varstr_init true true = some v0 ∧ varstr_cat_all v0 ss = Res.ok v ∧
      varstr_pack v true = Res.ok p ∧ p.chars = ss.flatten ++ [0] ∧
      (p.chars.length : Int) ≤ p.alloc := by
  obtain ⟨v, hv1, hv2, hv3⟩ := varstr_cat_all_spec ss vsFresh [] vsFresh_inv (by decide)
  have hmap : ss.map cstr = ss := by
    conv_rhs => rw [← List.map_id ss]
    apply List.map_congr_left
    intro s hs
    exact cstr_eq_self s (hfree s hs)
  rw [hmap, List.nil_append] at hv3
  have hlen := hv2.content_length_le _ hv3
  refine ⟨vsFresh, v, { alloc := v.used + 1, chars := ss.flatten ++ [0] }, rfl, hv1,
    by simp [varstr_pack, hv3], rfl, ?_⟩
  simp only [List.length_append, List.length_singleton]
  push_cast
  omega

/-- Witness of C6: `"ab"` then `"cd"` packs to `"abcd"` and its terminator. -/
theorem varstr_cat_pack_witness :
    ∃ v0 v p, varstr_init true true = some v0 ∧
      varstr_cat_all v0 [[97, 98], [99, 100]] = Res.ok v ∧
      varstr_pack v true = Res.ok p ∧ p.chars = [[97, 98], [99, 100]].flatten ++ [0] ∧
      (p.chars.length : Int) ≤ p.alloc :=
  varstr_cat_pack [[97, 98], [99, 100]] (by decide)

/-- C7 (the code at the failing input): on the fresh buffer of 15 slots,
`varstr_ncat` of a string of 20 characters with `count = SIZE_MAX` computes
`count + 1 = 0`, so it does not grow the buffer and leaves `used` at 0, and
`wcsncat` writes the 20 characters and the terminator into slots 0 to 20: the
slots 15 to 20 lie behind the 15 allocated, and no terminator is left inside
the buffer for the string to be read back. -/
theorem varstr_ncat_overflow :
    ∃ v, varstr_init true true = some vsFresh ∧
      int_of_size_t (size_t_add SIZE_MAX 1) = 0 ∧
      varstr_ncat vsFresh str20 SIZE_MAX true = Res.ok v ∧ v.size = 15 ∧ v.used = 0 ∧
      v.str 14 = 97 ∧ v.str 15 = 97 ∧ v.str 19 = 97 ∧ v.str 20 = 0 ∧
      v.content = none := by
  refine ⟨_, rfl, ?_, rfl, ?_, ?_, ?_, ?_, ?_, ?_, ?_⟩ <;> decide

/-- C8 (the code at the failing input): after `varstr_cat` of `"ab"` on the fresh
buffer the string is `"ab"`, `varstr_pack` copies 3 wide characters (the string
and its terminator) and asks `malloc` for `used + 1 = 4`, one more than the
length of the string plus the terminator slot. -/
theorem varstr_pack_alloc_after_cat :
    ∃ v p, varstr_cat vsFresh [97, 98] true = Res.ok v ∧ Reachable v ∧
      v.content = some [97, 98] ∧ v.used = 3 ∧
      varstr_pack v true = Res.ok p ∧ p.chars = [97, 98, 0] ∧ p.alloc = 4 := by
  refine ⟨_, _, rfl, Reachable.cat [97, 98] true (Reachable.init rfl) rfl, ?_, ?_, rfl,
    ?_, ?_⟩ <;> decide

/-- C9 (the code at the failing input): after `varstr_cat` of `"ab"` on the fresh
buffer, `used` is 3 while the string `"ab"` ends at slot 2; `varstr_pushc` of `'c'`
writes slot 3, behind the terminator, and the string in the buffer is still
`"ab"`, not `"abc"`. -/
theorem varstr_pushc_after_cat :
    ∃ v1 v2, varstr_cat vsFresh [97, 98] true = Res.ok v1 ∧ Reachable v1 ∧
      v1.content = some [97, 98] ∧ v1.used = 3 ∧
      varstr_pushc v1 99 true = some v2 ∧ v2.str 2 = 0 ∧ v2.str 3 = 99 ∧
      v2.content = some [97, 98] := by
  refine ⟨_, _, rfl, Reachable.cat [97, 98] true (Reachable.init rfl) rfl, ?_, ?_, rfl,
    ?_, ?_, ?_⟩ <;> decide

/-! ## Theorems: failure paths, counters and growth -/

/-- When the buffer has to grow and `realloc` fails, `varstr_refill_if_needed` returns
`NULL` and the buffer is as it was. -/
theorem varstr_refill_fail (vs : varstr) (iu : Int) (hg : vs.size - vs.used ≤ iu) :
    varstr_refill_if_needed vs iu false = none ∧
    varstr_refill_if_needed_buf vs iu false = vs := by
  simp [varstr_refill_if_needed, varstr_refill_if_needed_buf, hg]

/-- C11: text-buffer failure is atomic.  When the buffer has to grow (the free room
is at most the `int` the refill is asked for) and `realloc` fails, `varstr_cat`,
`varstr_ncat` and `varstr_pushc` return `NULL` and the buffer (`used`, `size` and
every stored character) is the one they were given; when `malloc` fails, so
does `varstr_pack`. -/
theorem varstr_fail_atomic (vs : varstr) (s : List WChar) (count : Nat) (c : WChar) :
    (vs.size - vs.used ≤ ((cstr s).length : Int) + 1 →
      varstr_cat vs s false = Res.null ∧ varstr_cat_buf vs s false = some vs) ∧
    (vs.size - vs.used ≤ int_of_size_t (size_t_add count 1) →
      varstr_ncat vs s count false = Res.null ∧
      varstr_ncat_buf vs s count false = some vs) ∧
    (vs.size - vs.used ≤ 2 →
      varstr_pushc vs c false = none ∧ varstr_pushc_buf vs c false = vs) ∧
    (varstr_pack vs false = Res.null ∧ varstr_pack_buf vs false = some vs) := by
  refine ⟨?_, ?_, ?_, ?_⟩
  · intro hg
    obtain ⟨h1, h2⟩ := varstr_refill_fail vs _ hg
    simp [varstr_cat, varstr_cat_buf, h1, h2]
  · intro hg
    obtain ⟨h1, h2⟩ := varstr_refill_fail vs _ hg
    simp [varstr_ncat, varstr_ncat_buf, h1, h2]
  · intro hg
    obtain ⟨h1, h2⟩ := varstr_refill_fail vs 2 hg
    simp [varstr_pushc, varstr_pushc_buf, h1, h2]
  · simp [varstr_pack, varstr_pack_buf]

/-- Witness of C11: the buffer with one free slot has to grow for each of the
appends. -/
theorem varstr_fail_atomic_witness :
    (varstr_cat vsTight [98, 99] false = Res.null ∧
      varstr_cat_buf vsTight [98, 99] false = some vsTight) ∧
    (varstr_ncat vsTight [98, 99] 1 false = Res.null ∧
      varstr_ncat_buf vsTight [98, 99] 1 false = some vsTight) ∧
    (varstr_pushc vsTight 98 false = none ∧ varstr_pushc_buf vsTight 98 false = vsTight) ∧
    (varstr_pack vsTight false = Res.null ∧ varstr_pack_buf vsTight false = some vsTight) :=
  ⟨(varstr_fail_atomic vsTight [98, 99] 1 98).1 (by decide),
   (varstr_fail_atomic vsTight [98, 99] 1 98).2.1 (by decide),
   (varstr_fail_atomic vsTight [98, 99] 1 98).2.2.1 (by decide),
   (varstr_fail_atomic vsTight [98, 99] 1 98).2.2.2⟩

/-- C12: store growth policy.  A `DPA_store` that succeeds (no growth is needed, or
`realloc` succeeds) leaves `size` unchanged, without consulting `realloc`, when
`size - used ≥ 2`, and sets `size` to exactly the old `size + 10` when
`size - used < 2`; the array `DPA_init` creates has `size = 25` and `used = 0`. -/
theorem DPA_store_size (dpa : DPA) (obj : Ptr) (re : Option (Int → Ptr))
    (hok : dpa.size - dpa.used < 2 → re.isSome = true) :
    (DPA_store dpa obj re).1 = obj ∧
    (2 ≤ dpa.size - dpa.used →
      (DPA_store dpa obj re).2.size = dpa.size ∧
      ∀ re2, DPA_store dpa obj re2 = DPA_store dpa obj re) ∧
    (dpa.size - dpa.used < 2 → (DPA_store dpa obj re).2.size = dpa.size + 10) ∧
    ∃ d0, DPA_init true true = some d0 ∧ d0.size = 25 ∧ d0.used = 0 := by
  refine ⟨?_, ?_, ?_, ⟨_, rfl, rfl, rfl⟩⟩
  · by_cases hg : dpa.size - dpa.used < 2
    · cases re with
      | none => simp at hok; omega
      | some g => simp [DPA_store, hg]
    · simp [DPA_store, hg]
  · intro h2
    have hg : ¬ dpa.size - dpa.used < 2 := by omega
    refine ⟨by simp [DPA_store, hg], ?_⟩
    intro re2
    simp [DPA_store, hg]
  · intro hg
    cases re with
    | none => simp at hok; omega
    | some g => simp [DPA_store, hg, DPA_REFILL_SIZE]

/-- Witness of C12: the full one-slot array grows from 1 to 11 slots. -/
theorem DPA_store_size_witness :
    (DPA_store dpaFull 9 (some (fun _ => 3))).1 = 9 ∧
    (2 ≤ dpaFull.size - dpaFull.used →
      (DPA_store dpaFull 9 (some (fun _ => 3))).2.size = dpaFull.size ∧
      ∀ re2, DPA_store dpaFull 9 re2 = DPA_store dpaFull 9 (some (fun _ => 3))) ∧
    (dpaFull.size - dpaFull.used < 2 →
      (DPA_store dpaFull 9 (some (fun _ => 3))).2.size = dpaFull.size + 10) ∧
    ∃ d0, DPA_init true true = some d0 ∧ d0.size = 25 ∧ d0.used = 0 :=
  DPA_store_size dpaFull 9 (some (fun _ => 3)) (fun _ => rfl)

/-- C14 (the code at the failing input): after `varstr_cat` of `"ab"` on the fresh
buffer the stored string is `"ab"`, two wide characters, and `used` is 3; after
`varstr_ncat` of `"ab"` with count 5 the stored string is `"ab"` and `used` is 6. -/
theorem varstr_used_after_cat :
    ∃ v w, varstr_cat vsFresh [97, 98] true = Res.ok v ∧ Reachable v ∧
      v.content = some [97, 98] ∧ v.used = 3 ∧
      varstr_ncat vsFresh [97, 98] 5 true = Res.ok w ∧ Reachable w ∧
      w.content = some [97, 98] ∧ w.used = 6 := by
  refine ⟨_, _, rfl, Reachable.cat [97, 98] true (Reachable.init rfl) rfl, ?_, ?_, rfl,
    Reachable.ncat [97, 98] 5 true (Reachable.init rfl) rfl, ?_, ?_⟩ <;> decide

/-- C17: `varstr_refill_if_needed` on a buffer with `used ≤ size`.  With `realloc`
succeeding the call succeeds; a successful call returns the buffer unchanged
when `size - used > extra`, and otherwise sets `size` to exactly the old
`size + extra + 5`, puts the terminator in every slot from the old `size` up to
the new one, and keeps `used` and every slot below the old `size`; in both
cases `size - used > extra` afterwards. -/
theorem varstr_refill_policy (vs : varstr) (extra : Int) (hle : vs.used ≤ vs.size) :
    (∃ v, varstr_refill_if_needed vs extra true = some v) ∧
    ∀ ok vs1, varstr_refill_if_needed vs extra ok = some vs1 →
      (extra < vs.size - vs.used → vs1 = vs) ∧
      (vs.size - vs.used ≤ extra →
        vs1.size = vs.size + extra + 5 ∧
        (∀ k, vs.size ≤ k → k < vs1.size → vs1.str k = 0) ∧
        vs1.used = vs.used ∧
        ∀ k, k < vs.size → vs1.str k = vs.str k) ∧
      extra < vs1.size - vs1.used := by
  refine ⟨varstr_refill_ok vs extra, ?_⟩
  intro ok vs1 h
  by_cases hc : vs.size - vs.used ≤ extra
  · cases ok with
    | false => simp [varstr_refill_if_needed, hc] at h
    | true =>
      simp only [varstr_refill_if_needed, hc, if_true, VARSTR_REFILL_SIZE] at h
      have h1 := Option.some.inj h
      subst h1
      refine ⟨fun hlt => absurd hc (by omega), fun _ => ⟨rfl, ?_, rfl, ?_⟩, ?_⟩
      · intro k hk1 hk2
        dsimp only at hk2 ⊢
        have hks : vs.size ≤ k ∧ k < vs.size + (extra + 5) := ⟨hk1, by omega⟩
        rw [if_pos hks]
      · intro k hk
        dsimp only
        have hks : ¬ (vs.size ≤ k ∧ k < vs.size + (extra + 5)) := by omega
        rw [if_neg hks]
      · dsimp only
        omega
  · have h1 : vs = vs1 := by simpa [varstr_refill_if_needed, hc] using h
    subst h1
    exact ⟨fun _ => rfl, fun hg => absurd hg hc, by omega⟩

/-- Witness of C17: the buffer with one free slot, asked for 3 more. -/
theorem varstr_refill_policy_witness :
    (∃ v, varstr_refill_if_needed vsTight 3 true = some v) ∧
    ∀ ok vs1, varstr_refill_if_needed vsTight 3 ok = some vs1 →
      ((3 : Int) < vsTight.size - vsTight.used → vs1 = vsTight) ∧
      (vsTight.size - vsTight.used ≤ 3 →
        vs1.size = vsTight.size + 3 + 5 ∧
        (∀ k, vsTight.size ≤ k → k < vs1.size → vs1.str k = 0) ∧
        vs1.used = vsTight.used ∧
        ∀ k, k < vsTight.size → vs1.str k = vsTight.str k) ∧
      (3 : Int) < vs1.size - vs1.used :=
  varstr_refill_policy vsTight 3 (by decide)

/-! ## Theorems: reachable states and memory safety -/

/-- Any call of `DPA_store` keeps `0 ≤ used < size`. -/
theorem DPA_store_bounds_any (dpa : DPA) (obj : Ptr) (re : Option (Int → Ptr))
    (h0 : 0 ≤ dpa.used) (hlt : dpa.used < dpa.size) :
    0 ≤ (DPA_store dpa obj re).2.used ∧
    (DPA_store dpa obj re).2.used < (DPA_store dpa obj re).2.size := by
  by_cases hg : dpa.size - dpa.used < 2
  · cases re with
    | none =>
      simp only [DPA_store, hg, if_true]
      exact ⟨h0, hlt⟩
    | some g =>
      simp only [DPA_store, hg, if_true, DPA_REFILL_SIZE]
      constructor <;> omega
  · simp only [DPA_store, hg, if_false]
    constructor <;> omega

/-- Any call of `DPA_rem` keeps `0 ≤ used < size`. -/
theorem DPA_rem_bounds (dpa : DPA) (obj : Ptr)
    (h0 : 0 ≤ dpa.used) (hlt : dpa.used < dpa.size) :
    0 ≤ (DPA_rem dpa obj).2.used ∧
    (DPA_rem dpa obj).2.used < (DPA_rem dpa obj).2.size := by
  obtain ⟨_, hscan⟩ := DPA_rem_loop_spec dpa.keys dpa.used obj dpa.used.toNat 0 (-1)
    (by simp) h0
  by_cases hj : (DPA_rem_loop dpa.keys dpa.used obj dpa.used.toNat 0 (-1) (dpa.keys 0)).2 = -1
  · simp only [DPA_rem, hj, if_true]
    exact ⟨h0, hlt⟩
  · have hpos : 1 ≤ dpa.used := by
      rcases hscan with ⟨he, _⟩ | ⟨ha, hb, _, _⟩
      · exact absurd he hj
      · omega
    simp only [DPA_rem, hj, if_false]
    constructor <;> omega

/-- Every reachable array has `0 ≤ used < size`. -/
theorem DPA_Reachable.bounds {dpa : DPA} (h : DPA_Reachable dpa) :
    0 ≤ dpa.used ∧ dpa.used < dpa.size := by
  induction h with
  | init hinit =>
    have h1 : dpaFresh = _ := Option.some.inj hinit
    rw [← h1]
    exact ⟨le_refl _, by decide⟩
  | store obj re _ ih => exact DPA_store_bounds_any _ obj re ih.1 ih.2
  | rem obj _ ih => exact DPA_rem_bounds _ obj ih.1 ih.2

/-- When `varstr_refill_if_needed` returns `NULL` the buffer is as it was. -/
theorem varstr_refill_buf_of_none (vs : varstr) (iu : Int) (ok : Bool)
    (h : varstr_refill_if_needed vs iu ok = none) :
    varstr_refill_if_needed_buf vs iu ok = vs := by
  by_cases hc : vs.size - vs.used ≤ iu
  · cases ok with
    | false => simp [varstr_refill_if_needed_buf, hc]
    | true => simp [varstr_refill_if_needed, hc] at h
  · simp [varstr_refill_if_needed_buf, hc]

/-- The buffer after `varstr_cat` is the buffer before (the call failed) or the
buffer the successful call returns. -/
theorem varstr_cat_buf_cases (vs vs1 : varstr) (s : List WChar) (ok : Bool)
    (h : varstr_cat_buf vs s ok = some vs1) :
    vs1 = vs ∨ varstr_cat vs s ok = Res.ok vs1 := by
  cases hre : varstr_refill_if_needed vs (((cstr s).length : Int) + 1) ok with
  | none =>
    left
    simp only [varstr_cat_buf, hre] at h
    rw [← Option.some.inj h]
    exact varstr_refill_buf_of_none vs _ ok hre
  | some vs0 =>
    right
    cases hw : wcscat vs0.str vs0.size s with
    | none => simp [varstr_cat_buf, hre, hw] at h
    | some m =>
      simp only [varstr_cat_buf, hre, hw] at h
      simp only [varstr_cat, hre, hw]
      rw [Option.some.inj h]

/-- The buffer after `varstr_ncat` is the buffer before (the call failed) or the
buffer the successful call returns. -/
theorem varstr_ncat_buf_cases (vs vs1 : varstr) (s : List WChar) (count : Nat) (ok : Bool)
    (h : varstr_ncat_buf vs s count ok = some vs1) :
    vs1 = vs ∨ varstr_ncat vs s count ok = Res.ok vs1 := by
  cases hre : varstr_refill_if_needed vs (int_of_size_t (size_t_add count 1)) ok with
  | none =>
    left
    simp only [varstr_ncat_buf, hre] at h
    rw [← Option.some.inj h]
    exact varstr_refill_buf_of_none vs _ ok hre
  | some vs0 =>
    right
    cases hw : wcsncat vs0.str vs0.size s count with
    | none => simp [varstr_ncat_buf, hre, hw] at h
    | some m =>
      simp only [varstr_ncat_buf, hre, hw] at h
      simp only [varstr_ncat, hre, hw]
      rw [Option.some.inj h]

/-- The buffer after `varstr_pushc` is the buffer before (the call failed) or the
buffer the successful call returns. -/
theorem varstr_pushc_buf_cases (vs : varstr) (c : WChar) (ok : Bool) :
    varstr_pushc_buf vs c ok = vs ∨
    varstr_pushc vs c ok = some (varstr_pushc_buf vs c ok) := by
  cases hre : varstr_refill_if_needed vs 2 ok with
  | none =>
    left
    simp only [varstr_pushc_buf, hre]
    exact varstr_refill_buf_of_none vs 2 ok hre
  | some vs0 =>
    right
    simp only [varstr_pushc, varstr_pushc_buf, hre]

/-- The reads of the scan loop started at `i ≤ used` with `used - i` iterations are
the slots `i + 1 .. used`, and slot `used` is among them when the loop runs
at all. -/
theorem DPA_rem_loop_reads_spec (used : Int) :
    ∀ (fuel : Nat) (i : Int), fuel = (used - i).toNat → i ≤ used →
      (∀ k ∈ DPA_rem_loop_reads used fuel i, i < k ∧ k ≤ used) ∧
      (i < used → used ∈ DPA_rem_loop_reads used fuel i) := by
  intro fuel
  induction fuel with
  | zero =>
    intro i hf hi
    refine ⟨by simp [DPA_rem_loop_reads], ?_⟩
    intro hlt
    omega
  | succ n ih =>
    intro i hf hi
    have hlt : i < used := by omega
    obtain ⟨ih1, ih2⟩ := ih (i + 1) (by omega) (by omega)
    have hstep : DPA_rem_loop_reads used (n + 1) i
        = (i + 1) :: DPA_rem_loop_reads used n (i + 1) := by
      simp [DPA_rem_loop_reads, hlt]
    rw [hstep]
    constructor
    · intro k hk
      rcases List.mem_cons.mp hk with h1 | h1
      · omega
      · have := ih1 k h1
        omega
    · intro _
      by_cases hlast : i + 1 = used
      · rw [hlast]
        exact List.mem_cons_self _ _
      · exact List.mem_cons_of_mem _ (ih2 (by omega))

/-! ## Theorems: the claims on reachable states and memory safety -/

/-- C15: reference-array invariant.  Every array reachable from `DPA_init` by calls
of `DPA_store` and `DPA_rem`, successful or failed, has `0 ≤ used ≤ size`, and in
fact `used < size`. -/
theorem DPA_invariant (dpa : DPA) (h : DPA_Reachable dpa) :
    0 ≤ dpa.used ∧ dpa.used ≤ dpa.size ∧ dpa.used < dpa.size :=
  ⟨h.bounds.1, le_of_lt h.bounds.2, h.bounds.2⟩

/-- Witness of C15: the fresh array after a store and the removal of what was
stored. -/
theorem DPA_invariant_witness :
    0 ≤ (DPA_rem (DPA_store dpaFresh 5 none).2 5).2.used ∧
    (DPA_rem (DPA_store dpaFresh 5 none).2 5).2.used
      ≤ (DPA_rem (DPA_store dpaFresh 5 none).2 5).2.size ∧
    (DPA_rem (DPA_store dpaFresh 5 none).2 5).2.used
      < (DPA_rem (DPA_store dpaFresh 5 none).2 5).2.size :=
  DPA_invariant (DPA_rem (DPA_store dpaFresh 5 none).2 5).2
    (DPA_Reachable.rem 5 (DPA_Reachable.store 5 none (DPA_Reachable.init rfl)))

/-- C16 (the code at the failing input): `varstr_ncat` of `"ab"` with
`count = SIZE_MAX` on the fresh buffer leaves `used` at 0 with `'a'` and `'b'` in
slots 0 and 1, slots at or above `used` that do not hold the terminator; with
a string of 20 characters it leaves no terminator below `size = 15`. -/
theorem varstr_ncat_breaks_termination :
    ∃ v w, varstr_ncat_buf vsFresh [97, 98] SIZE_MAX true = some v ∧ ReachableAny v ∧
      v.used = 0 ∧ v.str 0 = 97 ∧ v.str 1 = 98 ∧
      varstr_ncat_buf vsFresh str20 SIZE_MAX true = some w ∧ ReachableAny w ∧
      w.size = 15 ∧ wcslen w.str w.size = none := by
  refine ⟨_, _, rfl, ReachableAny.ncat [97, 98] SIZE_MAX true (ReachableAny.init rfl) rfl,
    ?_, ?_, ?_, rfl, ReachableAny.ncat str20 SIZE_MAX true (ReachableAny.init rfl) rfl,
    ?_, ?_⟩ <;> decide

/-- C18 (the code at the failing input): after `varstr_ncat` of `"ab"` with
`count = SIZE_MAX` on the fresh buffer the stored string is `"ab"` and `used` is 0;
`varstr_pack` asks `malloc` for `used + 1 = 1` wide character and copies 3, the
string and its terminator. -/
theorem varstr_pack_overrun :
    ∃ v p, varstr_ncat vsFresh [97, 98] SIZE_MAX true = Res.ok v ∧ Reachable v ∧
      v.used = 0 ∧ v.content = some [97, 98] ∧
      varstr_pack v true = Res.ok p ∧ p.alloc = 1 ∧ p.chars = [97, 98, 0] := by
  refine ⟨_, _, rfl, Reachable.ncat [97, 98] SIZE_MAX true (Reachable.init rfl) rfl,
    ?_, ?_, rfl, ?_, ?_⟩ <;> decide

/-- C19: the removal scan stays inside the storage.  On an array with
`0 ≤ used < size`, every slot `DPA_rem` reads (slot 0 in the initialiser, the
look-ahead reads of the loop, the last used slot for the swap) and every slot
it writes has an index from 0 to below `size`; slot `used` is read; and the loop
ends with its index equal to `used`. -/
theorem DPA_rem_in_bounds (dpa : DPA) (obj : Ptr)
    (h0 : 0 ≤ dpa.used) (hlt : dpa.used < dpa.size) :
    (∀ k ∈ DPA_rem_reads dpa obj, 0 ≤ k ∧ k < dpa.size) ∧
    (∀ k ∈ DPA_rem_writes dpa obj, 0 ≤ k ∧ k < dpa.size) ∧
    dpa.used ∈ DPA_rem_reads dpa obj ∧
    (DPA_rem_loop dpa.keys dpa.used obj dpa.used.toNat 0 (-1) (dpa.keys 0)).1 = dpa.used := by
  obtain ⟨hi, hscan⟩ := DPA_rem_loop_spec dpa.keys dpa.used obj dpa.used.toNat 0 (-1)
    (by simp) h0
  obtain ⟨hr1, hr2⟩ := DPA_rem_loop_reads_spec dpa.used dpa.used.toNat 0 (by simp) h0
  have hscanreads : ∀ k ∈ (0 : Int) :: DPA_rem_loop_reads dpa.used dpa.used.toNat 0,
      0 ≤ k ∧ k < dpa.size := by
    intro k hk
    rcases List.mem_cons.mp hk with h1 | h1
    · omega
    · have := hr1 k h1
      omega
  have husedscan : dpa.used ∈ (0 : Int) :: DPA_rem_loop_reads dpa.used dpa.used.toNat 0 := by
    by_cases hz : dpa.used = 0
    · rw [hz]
      exact List.mem_cons_self _ _
    · exact List.mem_cons_of_mem _ (hr2 (by omega))
  by_cases hj : (DPA_rem_loop dpa.keys dpa.used obj dpa.used.toNat 0 (-1) (dpa.keys 0)).2 = -1
  · refine ⟨?_, ?_, ?_, hi⟩
    · simpa only [DPA_rem_reads, hj, if_true] using hscanreads
    · simp [DPA_rem_writes, hj]
    · simpa only [DPA_rem_reads, hj, if_true] using husedscan
  · have hjb : 0 ≤ (DPA_rem_loop dpa.keys dpa.used obj dpa.used.toNat 0 (-1) (dpa.keys 0)).2 ∧
        (DPA_rem_loop dpa.keys dpa.used obj dpa.used.toNat 0 (-1) (dpa.keys 0)).2
          < dpa.used := by
      rcases hscan with ⟨he, _⟩ | ⟨ha, hb, _, _⟩
      · exact absurd he hj
      · exact ⟨ha, hb⟩
    refine ⟨?_, ?_, ?_, hi⟩
    · intro k hk
      simp only [DPA_rem_reads, hj, if_false, List.mem_append, List.mem_singleton] at hk
      rcases hk with h1 | h1
      · exact hscanreads k h1
      · omega
    · intro k hk
      simp only [DPA_rem_writes, hj, if_false, List.mem_cons, List.mem_singleton,
        List.mem_nil_iff, or_false] at hk
      rcases hk with h1 | h1 <;> omega
    · simp only [DPA_rem_reads, hj, if_false, List.mem_append]
      exact Or.inl husedscan

/-- Witness of C19: removing `7` from the example array. -/
theorem DPA_rem_in_bounds_witness :
    (∀ k ∈ DPA_rem_reads dpaExample 7, 0 ≤ k ∧ k < dpaExample.size) ∧
    (∀ k ∈ DPA_rem_writes dpaExample 7, 0 ≤ k ∧ k < dpaExample.size) ∧
    dpaExample.used ∈ DPA_rem_reads dpaExample 7 ∧
    (DPA_rem_loop dpaExample.keys dpaExample.used 7 dpaExample.used.toNat 0 (-1)
      (dpaExample.keys 0)).1 = dpaExample.used :=
  DPA_rem_in_bounds dpaExample 7 (by decide) (by decide)

/-- C20: store then remove is the identity on the contents.  On an array with
`0 ≤ used < size`, a successful `DPA_store` of `obj` followed by `DPA_rem` of `obj`
returns true and restores `used` and every slot of the original used region,
whether or not `obj` was already in the array; `size` is unchanged when no
growth was needed and 10 more otherwise. -/
theorem DPA_store_rem (dpa : DPA) (obj : Ptr) (re : Option (Int → Ptr))
    (h0 : 0 ≤ dpa.used) (hlt : dpa.used < dpa.size)
    (hok : dpa.size - dpa.used < 2 → re.isSome = true) :
    (DPA_store dpa obj re).1 = obj ∧
    (DPA_rem (DPA_store dpa obj re).2 obj).1 = true ∧
    (DPA_rem (DPA_store dpa obj re).2 obj).2.used = dpa.used ∧
    (∀ k, 0 ≤ k → k < dpa.used →
      (DPA_rem (DPA_store dpa obj re).2 obj).2.keys k = dpa.keys k) ∧
    (DPA_rem (DPA_store dpa obj re).2 obj).2.region = dpa.region ∧
    (2 ≤ dpa.size - dpa.used → (DPA_rem (DPA_store dpa obj re).2 obj).2.size = dpa.size) ∧
    (dpa.size - dpa.used < 2 →
      (DPA_rem (DPA_store dpa obj re).2 obj).2.size = dpa.size + 10) := by
  obtain ⟨hs1, hs2, hs3, hs4⟩ := DPA_store_ok_spec dpa obj re hlt hok
  have hrem := DPA_rem_eq_of_present (DPA_store dpa obj re).2 obj dpa.used h0
    (by rw [hs3]; omega) hs2 (by intro k hk1 hk2; rw [hs3] at hk2; omega)
  have hkeys : ∀ k, 0 ≤ k → k < dpa.used →
      (DPA_rem (DPA_store dpa obj re).2 obj).2.keys k = dpa.keys k := by
    intro k hk0 hk
    rw [hrem]
    have hne1 : k ≠ (DPA_store dpa obj re).2.used - 1 := by rw [hs3]; omega
    have hne2 : k ≠ dpa.used := by omega
    simp only [setSlot, hne1, hne2, if_false]
    exact hs4 k hk0 hk
  have hused : (DPA_rem (DPA_store dpa obj re).2 obj).2.used = dpa.used := by
    rw [hrem]
    show (DPA_store dpa obj re).2.used - 1 = dpa.used
    rw [hs3]
    omega
  have hsize : (DPA_rem (DPA_store dpa obj re).2 obj).2.size = (DPA_store dpa obj re).2.size := by
    rw [hrem]
  refine ⟨hs1, by rw [hrem], hused, hkeys, ?_, ?_, ?_⟩
  · simp only [DPA.region, hused]
    apply List.map_congr_left
    intro k hk
    have hkl : k < dpa.used.toNat := List.mem_range.mp hk
    exact hkeys k (by omega) (by omega)
  · intro h2
    have hg : ¬ dpa.size - dpa.used < 2 := by omega
    rw [hsize]
    simp [DPA_store, hg]
  · intro hg
    rw [hsize]
    cases re with
    | none => simp at hok; omega
    | some g => simp [DPA_store, hg, DPA_REFILL_SIZE]

/-- Witness of C20: storing and removing `7`, which the example array already
holds twice. -/
theorem DPA_store_rem_witness :
    (DPA_store dpaExample 7 none).1 = 7 ∧
    (DPA_rem (DPA_store dpaExample 7 none).2 7).1 = true ∧
    (DPA_rem (DPA_store dpaExample 7 none).2 7).2.used = dpaExample.used ∧
    (∀ k, 0 ≤ k → k < dpaExample.used →
      (DPA_rem (DPA_store dpaExample 7 none).2 7).2.keys k = dpaExample.keys k) ∧
    (DPA_rem (DPA_store dpaExample 7 none).2 7).2.region = dpaExample.region ∧
    (2 ≤ dpaExample.size - dpaExample.used →
      (DPA_rem (DPA_store dpaExample 7 none).2 7).2.size = dpaExample.size) ∧
    (dpaExample.size - dpaExample.used < 2 →
      (DPA_rem (DPA_store dpaExample 7 none).2 7).2.size = dpaExample.size + 10) :=
  DPA_store_rem dpaExample 7 none (by decide) (by decide) (by decide)

end Varlib
